import Mathlib

/-!
Verification of the batched Eternity puzzle environment
(`src/environment/batched_gym.py`).

The environment holds a batch of `B` square boards of side `size`; every
tile has four side labels (non-negative integers).  The board tensor of
shape `[B, 4, size, size]` is modelled here in its flattened
`(b h w) c` view (the view the mutating operations `roll_tiles` and
`swap_tiles` actually work on): a function `Fin (B * (size * size)) → Tile`
where the flat position of tile `(h, w)` of instance `b` is
`b * size * size + h * size + w`, exactly the row-major flattening
performed by `rearrange "b c h w -> (b h w) c"`.

Machine `long` tensors are modelled with `Int`/`Nat`.  The convolutions of
the match counter run in `float32` in the source; for labels below `2^24`
(every value `float32` represents exactly) the float arithmetic of the
kernels is exact, and the model uses the exact integer arithmetic.
Fallible torch indexing (which raises `IndexError` out of range and wraps
negative indices) is modelled by `Option`.
-/

namespace EternityRL

/-- Modelled from the spec: the side constants `NORTH, EAST, SOUTH, WEST`
are imported from `gym.py`, a module of this repository that is not under
`src/`.  §3 of the spec orders the four side labels North, East, South,
West, giving channels 0, 1, 2, 3. -/
def NORTH : Fin 4 := 0

/-- Modelled from the spec: see `NORTH`. -/
def EAST : Fin 4 := 1

/-- Modelled from the spec: see `NORTH`. -/
def SOUTH : Fin 4 := 2

/-- Modelled from the spec: see `NORTH`. -/
def WEST : Fin 4 := 3

/-- A tile: its four side labels, indexed by channel (side). -/
abbrev Tile := Fin 4 → Nat

/-- Number of tiles of one instance (`n_pieces = size * size`). -/
def n_pieces (size : Nat) : Nat := size * size

/-- `best_matches = 2 * size * (size - 1)`. -/
def best_matches (size : Nat) : Int := 2 * size * (size - 1 : Nat)

/-- `max_steps = n_pieces`. -/
def max_steps (size : Nat) : Nat := n_pieces size

/-- Torch advanced-index semantics on an axis of length `N`: an integer
index `i` addresses element `i` when `0 ≤ i < N`, wraps to `i + N` when
`-N ≤ i < 0`, and raises `IndexError` (here: `none`) otherwise. -/
def torchIndex (N : Nat) (i : Int) : Option (Fin N) :=
  if h : 0 ≤ i ∧ i < (N : Int) then some ⟨i.toNat, by omega⟩
  else if h2 : -(N : Int) ≤ i ∧ i < 0 then some ⟨(i + N).toNat, by omega⟩
  else none

/-- `BatchedEternityEnv.batched_roll`: per-row circular shift of the last
dimension of an `[N, 4]` tensor.  The source reduces each shift modulo 4,
forms `4 - shift`, doubles the tensor along the channel dimension and
gathers at `(4 - shift) + j`. -/
def batched_roll {N : Nat} (input : Fin N → Tile) (shifts : Fin N → Int) :
    Fin N → Tile :=
  fun p c =>
    let s1 : Int := shifts p % 4
    let s2 : Int := 4 - s1
    let k : Nat := (s2 + (c.val : Int)).toNat
    if h : k < 4 then input p ⟨k, h⟩
    else if h2 : k - 4 < 4 then input p ⟨k - 4, h2⟩
    else 0

/-- The source index a rolled tile reads channel `c` from:
`(c - shift) mod 4` (the semantics of `torch.roll` by `shift`). -/
def rollSrc (c : Fin 4) (s : Int) : Fin 4 :=
  ⟨(((c.val : Int) - s) % 4).toNat, by omega⟩

/-- Flat position of tile `t` of instance `b` (`tile_ids + offsets` in the
source, with `offsets = arange(0, B*n, n)`). -/
def flatAddr {B : Nat} (n : Nat) (t : Fin B → Int) (b : Fin B) : Int :=
  t b + (b.val : Int) * n

/-- `BatchedEternityEnv.roll_tiles` on the flattened board: scatter the
per-instance shifts into a zero shift vector of length `B * n` at the
flat addresses `tile_ids + offsets`, then `batched_roll` every row by the
resulting shift vector.  `none` exactly when the scatter indexing
raises. -/
def roll_tiles {B n : Nat} (inst : Fin (B * n) → Tile)
    (tile_ids shifts : Fin B → Int) : Option (Fin (B * n) → Tile) :=
  if h : ∀ b : Fin B, (torchIndex (B * n) (flatAddr n tile_ids b)).isSome then
    let total : Fin (B * n) → Int := fun p =>
      match (List.finRange B).find?
          (fun b => torchIndex (B * n) (flatAddr n tile_ids b) == some p) with
      | some b => shifts b
      | none => 0
    some (batched_roll inst total)
  else none

/-- `BatchedEternityEnv.swap_tiles` on the flattened board: gather the
rows at `tile_ids_2 + offsets` and at `tile_ids_1 + offsets`, then write
the first gather at the `tile_ids_1` addresses and the second at the
`tile_ids_2` addresses (the second write happens last, so it wins where
the two address sets overlap).  `none` exactly when the indexing
raises. -/
def swap_tiles {B n : Nat} (inst : Fin (B * n) → Tile)
    (t1 t2 : Fin B → Int) : Option (Fin (B * n) → Tile) :=
  if h : (∀ b : Fin B, (torchIndex (B * n) (flatAddr n t2 b)).isSome) ∧
         (∀ b : Fin B, (torchIndex (B * n) (flatAddr n t1 b)).isSome) then
    some (fun p =>
      match (List.finRange B).find?
          (fun b => torchIndex (B * n) (flatAddr n t2 b) == some p) with
      | some b => inst ((torchIndex (B * n) (flatAddr n t1 b)).get (h.2 b))
      | none =>
        match (List.finRange B).find?
            (fun b => torchIndex (B * n) (flatAddr n t1 b) == some p) with
        | some b => inst ((torchIndex (B * n) (flatAddr n t2 b)).get (h.1 b))
        | none => inst p)
  else none

theorem flat_lt {B size : Nat} (b : Fin B) (h w : Fin size) :
    b.val * n_pieces size + (h.val * size + w.val) < B * n_pieces size := by
  have hh : h.val * size + w.val < n_pieces size := by
    have h1 : h.val ≤ size - 1 := by omega
    have h2 : h.val * size ≤ (size - 1) * size :=
      Nat.mul_le_mul_right size h1
    have h3 : (size - 1) * size + size = size * size := by
      cases size with
      | zero => simp
      | succ m => simp [Nat.succ_sub_one]; ring
    unfold n_pieces
    omega
  calc b.val * n_pieces size + (h.val * size + w.val)
      < b.val * n_pieces size + n_pieces size := by omega
    _ = (b.val + 1) * n_pieces size := by ring
    _ ≤ B * n_pieces size := Nat.mul_le_mul_right _ (by omega)

/-- The `[4, size, size]` board view of instance `b` of the flattened
batch: tile `(h, w)` sits at flat position `b * n + h * size + w`. -/
def boardOf {B size : Nat} (inst : Fin (B * n_pieces size) → Tile)
    (b : Fin B) : Fin size → Fin size → Tile :=
  fun h w => inst ⟨b.val * n_pieces size + (h.val * size + w.val), flat_lt b h w⟩

/-- The upper row index of a horizontally adjacent pair. -/
def rowLow {size : Nat} (y : Fin (size - 1)) : Fin size := ⟨y.val, by omega⟩

/-- The lower row index of a horizontally adjacent pair. -/
def rowHigh {size : Nat} (y : Fin (size - 1)) : Fin size := ⟨y.val + 1, by omega⟩

/-- Binary digit count of `n` (25 for the labels around `2^24`), computed
with the input itself as recursion fuel. -/
def bitsAux : Nat → Nat → Nat
  | 0, _ => 0
  | fuel + 1, n => if n = 0 then 0 else bitsAux fuel (n / 2) + 1

/-- Number of binary digits of `n`. -/
def bits (n : Nat) : Nat := bitsAux n n

/-- The value of a label after the `self.instances.float()` cast of
`matches` (line 232): float32 rounds every integer to the nearest value
with a 24-bit significand, ties to the even significand.  Labels below
`2^24` are exact; above, the label is rounded to the nearest multiple of
`2^(e-23)` where `e` is its floor log2.  Labels beyond the finite
float32 range (at least `2^128`) overflow to infinity and are outside
this model. -/
def roundF32 (n : Nat) : Nat :=
  if n < 2 ^ 24 then n
  else
    let e := bits n - 1
    let ulp := 2 ^ (e - 23)
    let q := n / ulp
    if 2 * (n % ulp) < ulp then q * ulp
    else if ulp < 2 * (n % ulp) then (q + 1) * ulp
    else if q % 2 = 0 then q * ulp else (q + 1) * ulp

theorem roundF32_eq_of_lt {n : Nat} (h : n < 2 ^ 24) : roundF32 n = n := by
  unfold roundF32
  rw [if_pos h]

/-- `HORIZONTAL_CONV` zero count: positions `(y, x)` where the SOUTH side
of tile `(y+1, x)` minus the NORTH side of tile `(y, x)` is exactly 0 in
float32.  The kernel holds only the coefficients 1 and -1, so the conv
output is the float32 difference of the two cast labels, and a float32
difference of two finite representable values compares equal to 0
exactly when the values are equal (distinct representables differ by at
least one unit in the last place, which never rounds to 0) — hence the
test is integer equality of the `roundF32` values. -/
def hdiff_count {size : Nat} (board : Fin size → Fin size → Tile) : Nat :=
  (Finset.univ.filter (fun q : Fin (size - 1) × Fin size =>
    (roundF32 (board (rowHigh q.1) q.2 SOUTH) : Int)
      - (roundF32 (board (rowLow q.1) q.2 NORTH) : Int) = 0)).card

/-- `VERTICAL_CONV` zero count: positions `(y, x)` where the EAST side of
tile `(y, x)` minus the WEST side of tile `(y, x+1)` is exactly 0 in
float32 (see `hdiff_count` for the float32 zero test). -/
def vdiff_count {size : Nat} (board : Fin size → Fin size → Tile) : Nat :=
  (Finset.univ.filter (fun q : Fin size × Fin (size - 1) =>
    (roundF32 (board q.1 (rowLow q.2) EAST) : Int)
      - (roundF32 (board q.1 (rowHigh q.2) WEST) : Int) = 0)).card

/-- `HORIZONTAL_ZERO_CONV` zero count: positions where the SOUTH side of
the lower tile plus the NORTH side of the upper tile is exactly 0 in
float32.  Both cast labels are non-negative, so the float32 sum is 0
exactly when both rounded values are 0. -/
def hzero_count {size : Nat} (board : Fin size → Fin size → Tile) : Nat :=
  (Finset.univ.filter (fun q : Fin (size - 1) × Fin size =>
    (roundF32 (board (rowHigh q.1) q.2 SOUTH) : Int)
      + (roundF32 (board (rowLow q.1) q.2 NORTH) : Int) = 0)).card

/-- `VERTICAL_ZERO_CONV` zero count: positions where the EAST side plus
the neighbouring WEST side is exactly 0 in float32 (see
`hzero_count`). -/
def vzero_count {size : Nat} (board : Fin size → Fin size → Tile) : Nat :=
  (Finset.univ.filter (fun q : Fin size × Fin (size - 1) =>
    (roundF32 (board q.1 (rowLow q.2) EAST) : Int)
      + (roundF32 (board q.1 (rowHigh q.2) WEST) : Int) = 0)).card

/-- `BatchedEternityEnv.matches` for one instance: count the float32
zeros of the two difference kernels, then remove the float32 zeros of
the two sum kernels (the 0-0 pairs).  The count accumulation itself is
exact (counts are far below `2^24`). -/
def matches_inst {size : Nat} (board : Fin size → Fin size → Tile) : Int :=
  ((hdiff_count board : Int) + (vdiff_count board : Int))
    - (hzero_count board : Int) - (vzero_count board : Int)

/-- The per-instance match counts of the whole batch. -/
def matchesOf {B size : Nat} (inst : Fin (B * n_pieces size) → Tile) :
    Fin B → Int :=
  fun b => matches_inst (boardOf inst b)

/-- The direct per-pair check of the claim: an adjacent pair matches when
the touching sides carry the same label and that label is not 0. -/
def direct_match_count {size : Nat}
    (board : Fin size → Fin size → Tile) : Nat :=
  (Finset.univ.filter (fun q : Fin (size - 1) × Fin size =>
    board (rowHigh q.1) q.2 SOUTH = board (rowLow q.1) q.2 NORTH ∧
    board (rowHigh q.1) q.2 SOUTH ≠ 0)).card
  + (Finset.univ.filter (fun q : Fin size × Fin (size - 1) =>
    board q.1 (rowLow q.2) EAST = board q.1 (rowHigh q.2) WEST ∧
    board q.1 (rowLow q.2) EAST ≠ 0)).card

/-- The dynamic state of `BatchedEternityEnv`: the flattened board tensor,
the scalar `step_id`, the batch-wide `truncated` flag and the
per-instance `terminated` vector. -/
structure EnvState (B size : Nat) where
  instances : Fin (B * n_pieces size) → Tile
  step_id : Nat
  truncated : Bool
  terminated : Fin B → Bool

/-- `actions[:, 0]` — the first tile id `step` consumes. -/
def act_tiles_1 {B : Nat} (a : Fin B → Fin 4 → Int) : Fin B → Int :=
  fun b => a b 0

/-- `actions[:, 2]` — the second tile id `step` consumes. -/
def act_tiles_2 {B : Nat} (a : Fin B → Fin 4 → Int) : Fin B → Int :=
  fun b => a b 2

/-- `actions[:, 1]` — the first shift `step` consumes. -/
def act_shifts_1 {B : Nat} (a : Fin B → Fin 4 → Int) : Fin B → Int :=
  fun b => a b 1

/-- `actions[:, 3]` — the second shift `step` consumes. -/
def act_shifts_2 {B : Nat} (a : Fin B → Fin 4 → Int) : Fin B → Int :=
  fun b => a b 3

/-- `BatchedEternityEnv.step`: increment `step_id`, read the action
columns, record the match count, roll tile 1, roll tile 2, swap the two
tiles, fold the new `matches == best_matches` test into `terminated`,
set `truncated = step_id >= max_steps` and return the delta reward
`(matches_after - matches_before) / best_matches`. -/
def stepEnv {B size : Nat} (st : EnvState B size)
    (a : Fin B → Fin 4 → Int) :
    Option (EnvState B size × (Fin B → ℚ)) :=
  let step_id := st.step_id + 1
  let before := matchesOf st.instances
  do
    let i1 ← roll_tiles st.instances (act_tiles_1 a) (act_shifts_1 a)
    let i2 ← roll_tiles i1 (act_tiles_2 a) (act_shifts_2 a)
    let i3 ← swap_tiles i2 (act_tiles_1 a) (act_tiles_2 a)
    let after := matchesOf i3
    let terminated : Fin B → Bool :=
      fun b => st.terminated b || decide (after b = best_matches size)
    let truncated : Bool := decide (step_id ≥ max_steps size)
    let rewards : Fin B → ℚ :=
      fun b => ((after b - before b : Int) : ℚ) / ((best_matches size : Int) : ℚ)
    some (⟨i3, step_id, truncated, terminated⟩, rewards)

/-- Modelled from the spec: the batch-owned `torch.Generator` (third-party
state whose algorithm is outside this repository) is modelled as a
deterministic state machine on a `Nat` state, seeded at construction and
advanced only by draws, so its draws are ordered strictly by call
sequence (§5 of the spec). -/
def rngNext (g : Nat) : Nat × Nat :=
  let g2 := (6364136223846793005 * g + 1442695040888963407) % (2 ^ 64)
  (g2 / (2 ^ 16) % (2 ^ 32), g2)

/-- Modelled from the spec: one `torch.randperm` draw, as a Fisher-Yates
shuffle driven by the generator. -/
def shuffleAux : Nat → List Nat → Nat → List Nat × Nat
  | 0, _, g => ([], g)
  | fuel + 1, l, g =>
    match l with
    | [] => ([], g)
    | l =>
      let rg := rngNext g
      let i := rg.1 % l.length
      let x := l.getD i 0
      let rest := l.eraseIdx i
      let tg := shuffleAux fuel rest rg.2
      (x :: tg.1, tg.2)

/-- Modelled from the spec: `torch.randperm n` — a permutation of
`[0, n)` drawn from the generator. -/
def randperm (n : Nat) (g : Nat) : List Nat × Nat :=
  shuffleAux n (List.range n) g

/-- Modelled from the spec: the `B` sequential `torch.randperm` draws of
`scramble_instances`, instance 0 first. -/
def drawPerms : Nat → Nat → Nat → List (List Nat) × Nat
  | 0, _, g => ([], g)
  | b + 1, n, g =>
    let pg := randperm n g
    let rg := drawPerms b n pg.2
    (pg.1 :: rg.1, rg.2)

/-- Modelled from the spec: one `torch.randint(low=0, high=4, size=(c,))`
draw producing `c` values in `[0, 4)`. -/
def drawShifts : Nat → Nat → List Int × Nat
  | 0, g => ([], g)
  | c + 1, g =>
    let rg := rngNext g
    let sg := drawShifts c rg.2
    (((rg.1 % 4 : Nat) : Int) :: sg.1, sg.2)

/-- `BatchedEternityEnv.scramble_instances`: per instance, reassign the
tiles by a fresh random permutation (`new[b][j] = old[b][perm_b[j]]`),
then roll every tile of the batch by an independent random shift in
`[0, 4)`. -/
theorem pos_of_fin_mul {B n : Nat} (p : Fin (B * n)) : 0 < n := by
  rcases Nat.eq_zero_or_pos n with h0 | h0
  · exact absurd p.isLt (by simp [h0])
  · exact h0

theorem scramble_idx_lt {B n : Nat} (p : Fin (B * n)) {pj : Nat}
    (hpj : pj < n) : p.val / n * n + pj < B * n := by
  have hn : 0 < n := pos_of_fin_mul p
  have hb : p.val / n < B := by
    have hlt : p.val < n * B := Nat.mul_comm B n ▸ p.isLt
    exact Nat.div_lt_of_lt_mul hlt
  calc p.val / n * n + pj < p.val / n * n + n := by omega
    _ = (p.val / n + 1) * n := by ring
    _ ≤ B * n := Nat.mul_le_mul_right _ (by omega)

def scramble_instances {B size : Nat}
    (inst : Fin (B * n_pieces size) → Tile) (g : Nat) :
    (Fin (B * n_pieces size) → Tile) × Nat :=
  let pg := drawPerms B (n_pieces size) g
  let permuted : Fin (B * n_pieces size) → Tile := fun p =>
    let b := p.val / n_pieces size
    let j := p.val % n_pieces size
    let pj := ((pg.1.getD b []).getD j 0) % n_pieces size
    inst ⟨b * n_pieces size + pj,
      scramble_idx_lt p (Nat.mod_lt _ (pos_of_fin_mul p))⟩
  let sg := drawShifts (B * n_pieces size) pg.2
  let shifts : Fin (B * n_pieces size) → Int := fun p => sg.1.getD p.val 0
  (batched_roll permuted shifts, sg.2)

/-- `BatchedEternityEnv.reset`: scramble the instances and reset the
episode bookkeeping (`step_id = 0`, `truncated = false`,
`terminated = false` everywhere). -/
def resetEnv {B size : Nat} (st : EnvState B size) (g : Nat) :
    EnvState B size × Nat :=
  let sg := scramble_instances st.instances g
  (⟨sg.1, 0, false, fun _ => false⟩, sg.2)

/-- A raw input tensor: its shape and its flat (row-major) data. -/
structure RawTensor where
  shape : List Nat
  data : List Int

/-- The four construction assertions of `BatchedEternityEnv.__init__`, in
source order: 4 dimensions, channel dimension 4, square board,
non-negative labels. -/
def validInit (t : RawTensor) : Prop :=
  t.shape.length = 4 ∧ t.shape.getD 1 0 = 4 ∧
  t.shape.getD 2 0 = t.shape.getD 3 0 ∧ ∀ x ∈ t.data, 0 ≤ x

instance (t : RawTensor) : Decidable (validInit t) := by
  unfold validInit; infer_instance

/-- Element `[b, c, h, w]` of a raw `[B, 4, size, size]` tensor. -/
def rawAt (t : RawTensor) (size b c h w : Nat) : Int :=
  t.data.getD (b * (4 * (size * size)) + c * (size * size) + h * size + w) 0

/-- The environment handle: batch size and board size (read off the
tensor shape), the dynamic state and the generator. -/
structure Env where
  B : Nat
  size : Nat
  st : EnvState B size
  rng : Nat

/-- Number of elements of a raw tensor: the product of its shape
entries. -/
def numel (t : RawTensor) : Nat :=
  t.shape.foldr (fun a b => a * b) 1

/-- `BatchedEternityEnv.__init__`: check the four assertions, then build
the batch state from the tensor (flattened `(b h w) c` view) and seed the
generator.  `none` when an assertion fails — no state is created.  After
the assertions, `self.instances.max()` (line 68, computing `n_class`)
raises a `RuntimeError` on a tensor with zero elements, so construction
also fails on every empty tensor that passed the four checks; the
`numel` guard models that failure. -/
def mkEnv (t : RawTensor) (seed : Nat) : Option Env :=
  if validInit t then
    if 0 < numel t then
      let B := t.shape.getD 0 0
      let size := t.shape.getD 2 0
      some ⟨B, size,
        ⟨fun p =>
          let b := p.val / n_pieces size
          let rem := p.val % n_pieces size
          let h := rem / size
          let w := rem % size
          fun c => (rawAt t size b c h w).toNat,
         0, false, fun _ => false⟩,
        seed⟩
    else none
  else none

/-- One external call into the environment: `reset()` or
`step(actions)`. -/
inductive Call (B : Nat) where
  | reset : Call B
  | act : (Fin B → Fin 4 → Int) → Call B

/-- The observable output of one call: board state plus, for a step, the
rewards, terminated vector and truncated flag returned. -/
inductive Out (B size : Nat) where
  | obs : (Fin (B * n_pieces size) → Tile) → Out B size
  | stepOut : (Fin (B * n_pieces size) → Tile) → (Fin B → ℚ) →
      (Fin B → Bool) → Bool → Out B size

/-- Run one call against a state and generator. -/
def runCall {B size : Nat} (st : EnvState B size) (g : Nat) :
    Call B → Option (EnvState B size × Nat × Out B size)
  | Call.reset =>
    let rg := resetEnv st g
    some (rg.1, rg.2, Out.obs rg.1.instances)
  | Call.act a =>
    (stepEnv st a).map (fun r =>
      (r.1, g, Out.stepOut r.1.instances r.2 r.1.terminated r.1.truncated))

/-- Run a sequence of calls, collecting the outputs. -/
def runTrace {B size : Nat} (st : EnvState B size) (g : Nat) :
    List (Call B) → Option (List (Out B size) × EnvState B size × Nat)
  | [] => some ([], st, g)
  | c :: cs => do
    let r ← runCall st g c
    let rest ← runTrace r.1 r.2.1 cs
    some (r.2.2 :: rest.1, rest.2)

/-- The declared `action_space` bounds, in the order the source lists
them: `MultiDiscrete([n_pieces, n_pieces, 4, 4])`. -/
def action_space_bounds (size : Nat) : Fin 4 → Nat :=
  ![n_pieces size, n_pieces size, 4, 4]

/-- Membership of a per-instance action in the declared action space:
every component within its declared bound. -/
def inActionSpace {B : Nat} (size : Nat) (a : Fin B → Fin 4 → Int) : Prop :=
  ∀ b : Fin B, ∀ i : Fin 4, 0 ≤ a b i ∧ a b i < (action_space_bounds size i : Int)

theorem torchIndex_some {N : Nat} {i : Int} (h0 : 0 ≤ i) (h1 : i < (N : Int)) :
    torchIndex N i = some ⟨i.toNat, by omega⟩ := by
  unfold torchIndex
  rw [dif_pos ⟨h0, h1⟩]

theorem torchIndex_isSome_iff {N : Nat} {i : Int} :
    (torchIndex N i).isSome ↔ (-(N : Int) ≤ i ∧ i < (N : Int)) := by
  unfold torchIndex
  split
  · simp; omega
  · split
    · simp; omega
    · simp; omega

theorem batched_roll_eq {N : Nat} (input : Fin N → Tile)
    (shifts : Fin N → Int) (p : Fin N) (c : Fin 4) :
    batched_roll input shifts p c = input p (rollSrc c (shifts p)) := by
  have h1 : 0 ≤ shifts p % 4 := Int.emod_nonneg _ (by norm_num)
  have h2 : shifts p % 4 < 4 := Int.emod_lt_of_pos _ (by norm_num)
  have hc : c.val < 4 := c.isLt
  unfold batched_roll rollSrc
  simp only []
  split
  · exact congrArg (input p) (Fin.ext (by simp; omega))
  · split
    · exact congrArg (input p) (Fin.ext (by simp; omega))
    · omega

theorem rollSrc_zero (c : Fin 4) : rollSrc c 0 = c := by
  unfold rollSrc
  exact Fin.ext (by have := c.isLt; simp; omega)

theorem rollSrc_emod (c : Fin 4) (s : Int) : rollSrc c (s % 4) = rollSrc c s := by
  unfold rollSrc
  exact Fin.ext (by simp; omega)

theorem rollSrc_of_emod_zero (c : Fin 4) {s : Int} (h : s % 4 = 0) :
    rollSrc c s = c := by
  rw [← rollSrc_emod, h, rollSrc_zero]

theorem find?_eq_some_of_unique {α : Type} {l : List α} {p : α → Bool} {b : α}
    (hmem : b ∈ l) (hp : p b = true) (h : ∀ x ∈ l, p x = true → x = b) :
    l.find? p = some b := by
  have hs : (l.find? p).isSome := List.find?_isSome.mpr ⟨b, hmem, hp⟩
  cases hfind : l.find? p with
  | none => rw [hfind] at hs; simp at hs
  | some x =>
    have hx := List.find?_some hfind
    have hm := List.mem_of_find?_eq_some hfind
    rw [h x hm hx]

/-- An in-range tile id gives a flat address inside `[0, B * n)`. -/
theorem flatAddr_range {B n : Nat} {t : Fin B → Int}
    (ht : ∀ b, 0 ≤ t b ∧ t b < (n : Int)) (b : Fin B) :
    0 ≤ flatAddr n t b ∧ flatAddr n t b < ((B * n : Nat) : Int) := by
  have h0 := (ht b).1
  have h1 := (ht b).2
  have hbn : (b.val + 1) * n ≤ B * n := Nat.mul_le_mul_right _ (by omega)
  have hbn2 : ((b.val : Int) + 1) * (n : Int) ≤ ((B * n : Nat) : Int) := by
    push_cast
    exact_mod_cast hbn
  have hexp : ((b.val : Int) + 1) * (n : Int)
      = (b.val : Int) * (n : Int) + (n : Int) := by ring
  unfold flatAddr
  constructor
  · have : 0 ≤ (b.val : Int) * (n : Int) := by positivity
    omega
  · omega

/-- Two in-range flat addresses can only coincide within the same
instance. -/
theorem flatAddr_inj {B n : Nat} {t1 t2 : Fin B → Int}
    (h1 : ∀ b, 0 ≤ t1 b ∧ t1 b < (n : Int))
    (h2 : ∀ b, 0 ≤ t2 b ∧ t2 b < (n : Int)) {b b' : Fin B}
    (heq : flatAddr n t1 b = flatAddr n t2 b') : b = b' := by
  have ha := h1 b
  have hb := h2 b'
  unfold flatAddr at heq
  rcases Nat.lt_trichotomy b.val b'.val with hlt | heqv | hgt
  · exfalso
    have hmul : (b.val + 1) * n ≤ b'.val * n := Nat.mul_le_mul_right _ (by omega)
    have hmul2 : ((b.val : Int) + 1) * (n : Int)
        ≤ (b'.val : Int) * (n : Int) := by exact_mod_cast hmul
    have hexp : ((b.val : Int) + 1) * (n : Int)
        = (b.val : Int) * (n : Int) + (n : Int) := by ring
    omega
  · exact Fin.ext heqv
  · exfalso
    have hmul : (b'.val + 1) * n ≤ b.val * n := Nat.mul_le_mul_right _ (by omega)
    have hmul2 : ((b'.val : Int) + 1) * (n : Int)
        ≤ (b.val : Int) * (n : Int) := by exact_mod_cast hmul
    have hexp : ((b'.val : Int) + 1) * (n : Int)
        = (b'.val : Int) * (n : Int) + (n : Int) := by ring
    omega

/-- Every in-range flat address is realised by a flat position. -/
theorem flatAddr_exists {B n : Nat} {t : Fin B → Int}
    (ht : ∀ b, 0 ≤ t b ∧ t b < (n : Int)) (b : Fin B) :
    ∃ p : Fin (B * n), (p.val : Int) = flatAddr n t b := by
  have hr := flatAddr_range ht b
  exact ⟨⟨(flatAddr n t b).toNat, by omega⟩, by simp; omega⟩

theorem option_get_eq {α : Type} {o : Option α} {x : α} (h : o = some x)
    (hs : o.isSome) : o.get hs = x := by
  subst h; rfl

theorem torchIndex_beq_iff {B n : Nat} {t : Fin B → Int}
    (ht : ∀ b, 0 ≤ t b ∧ t b < (n : Int)) (b : Fin B) (p : Fin (B * n)) :
    ((torchIndex (B * n) (flatAddr n t b) == some p) = true) ↔
      (p.val : Int) = flatAddr n t b := by
  have hr := flatAddr_range ht b
  rw [torchIndex_some hr.1 hr.2]
  rw [beq_iff_eq, Option.some_inj, Fin.ext_iff]
  simp
  omega

theorem roll_tiles_spec {B n : Nat} (inst : Fin (B * n) → Tile)
    (t s : Fin B → Int) (ht : ∀ b, 0 ≤ t b ∧ t b < (n : Int)) :
    ∃ v, roll_tiles inst t s = some v ∧
      (∀ p : Fin (B * n), (∀ b, (p.val : Int) ≠ flatAddr n t b) → v p = inst p) ∧
      (∀ (b : Fin B) (p : Fin (B * n)), (p.val : Int) = flatAddr n t b →
        ∀ c, v p c = inst p (rollSrc c (s b))) := by
  have hsome : ∀ b : Fin B, (torchIndex (B * n) (flatAddr n t b)).isSome := by
    intro b
    have hr := flatAddr_range ht b
    rw [torchIndex_isSome_iff]
    omega
  unfold roll_tiles
  rw [dif_pos hsome]
  refine ⟨_, rfl, ?_, ?_⟩
  · intro p hp
    funext c
    rw [batched_roll_eq]
    have hfind : (List.finRange B).find?
        (fun b => torchIndex (B * n) (flatAddr n t b) == some p) = none := by
      rw [List.find?_eq_none]
      intro b _
      rw [Bool.not_eq_true, ← Bool.not_eq_true]
      rw [torchIndex_beq_iff ht b p]
      exact hp b
    simp only [hfind]
    rw [rollSrc_zero]
  · intro b p hp c
    rw [batched_roll_eq]
    have hfind : (List.finRange B).find?
        (fun b => torchIndex (B * n) (flatAddr n t b) == some p) = some b := by
      apply find?_eq_some_of_unique (List.mem_finRange b)
      · exact (torchIndex_beq_iff ht b p).mpr hp
      · intro x _ hx
        have hpx := (torchIndex_beq_iff ht x p).mp hx
        exact flatAddr_inj ht ht (hpx ▸ hp)
    simp only [hfind]

theorem swap_tiles_spec {B n : Nat} (inst : Fin (B * n) → Tile)
    (t1 t2 : Fin B → Int)
    (h1 : ∀ b, 0 ≤ t1 b ∧ t1 b < (n : Int))
    (h2 : ∀ b, 0 ≤ t2 b ∧ t2 b < (n : Int)) :
    ∃ v, swap_tiles inst t1 t2 = some v ∧
      (∀ p : Fin (B * n),
        (∀ b, (p.val : Int) ≠ flatAddr n t1 b ∧ (p.val : Int) ≠ flatAddr n t2 b) →
        v p = inst p) ∧
      (∀ (b : Fin B) (p q : Fin (B * n)), (p.val : Int) = flatAddr n t2 b →
        (q.val : Int) = flatAddr n t1 b → v p = inst q) ∧
      (∀ (b : Fin B) (p q : Fin (B * n)), (p.val : Int) = flatAddr n t1 b →
        (∀ b2, (p.val : Int) ≠ flatAddr n t2 b2) →
        (q.val : Int) = flatAddr n t2 b → v p = inst q) := by
  have hsome2 : ∀ b : Fin B, (torchIndex (B * n) (flatAddr n t2 b)).isSome := by
    intro b
    have hr := flatAddr_range h2 b
    rw [torchIndex_isSome_iff]
    omega
  have hsome1 : ∀ b : Fin B, (torchIndex (B * n) (flatAddr n t1 b)).isSome := by
    intro b
    have hr := flatAddr_range h1 b
    rw [torchIndex_isSome_iff]
    omega
  unfold swap_tiles
  rw [dif_pos ⟨hsome2, hsome1⟩]
  refine ⟨_, rfl, ?_, ?_, ?_⟩
  · intro p hp
    have hfind2 : (List.finRange B).find?
        (fun b => torchIndex (B * n) (flatAddr n t2 b) == some p) = none := by
      rw [List.find?_eq_none]
      intro b _
      rw [Bool.not_eq_true, ← Bool.not_eq_true, torchIndex_beq_iff h2 b p]
      exact (hp b).2
    have hfind1 : (List.finRange B).find?
        (fun b => torchIndex (B * n) (flatAddr n t1 b) == some p) = none := by
      rw [List.find?_eq_none]
      intro b _
      rw [Bool.not_eq_true, ← Bool.not_eq_true, torchIndex_beq_iff h1 b p]
      exact (hp b).1
    simp only [hfind2, hfind1]
  · intro b p q hp hq
    have hfind2 : (List.finRange B).find?
        (fun b => torchIndex (B * n) (flatAddr n t2 b) == some p) = some b := by
      apply find?_eq_some_of_unique (List.mem_finRange b)
      · exact (torchIndex_beq_iff h2 b p).mpr hp
      · intro x _ hx
        have hpx := (torchIndex_beq_iff h2 x p).mp hx
        exact flatAddr_inj h2 h2 (hpx ▸ hp)
    simp only [hfind2]
    have hr := flatAddr_range h1 b
    rw [option_get_eq (torchIndex_some hr.1 hr.2)]
    exact congrArg inst (Fin.ext (by simp; omega))
  · intro b p q hp hnp hq
    have hfind2 : (List.finRange B).find?
        (fun b => torchIndex (B * n) (flatAddr n t2 b) == some p) = none := by
      rw [List.find?_eq_none]
      intro b2 _
      rw [Bool.not_eq_true, ← Bool.not_eq_true, torchIndex_beq_iff h2 b2 p]
      exact hnp b2
    have hfind1 : (List.finRange B).find?
        (fun b => torchIndex (B * n) (flatAddr n t1 b) == some p) = some b := by
      apply find?_eq_some_of_unique (List.mem_finRange b)
      · exact (torchIndex_beq_iff h1 b p).mpr hp
      · intro x _ hx
        have hpx := (torchIndex_beq_iff h1 x p).mp hx
        exact flatAddr_inj h1 h1 (hpx ▸ hp)
    simp only [hfind2, hfind1]
    have hr := flatAddr_range h2 b
    rw [option_get_eq (torchIndex_some hr.1 hr.2)]
    exact congrArg inst (Fin.ext (by simp; omega))

theorem zero_filter_subset {ι : Type} [Fintype ι] (f g : ι → Nat)
    [DecidableEq ι] :
    (Finset.univ.filter (fun i => (f i : Int) + g i = 0))
      ⊆ (Finset.univ.filter (fun i => (f i : Int) - g i = 0)) := by
  intro i hi
  simp only [Finset.mem_filter, Finset.mem_univ, true_and] at hi ⊢
  omega

theorem direct_eq_diff_sub_zero {ι : Type} [Fintype ι] (f g : ι → Nat)
    [DecidableEq ι] :
    (Finset.univ.filter (fun i => f i = g i ∧ f i ≠ 0)).card
      = (Finset.univ.filter (fun i => (f i : Int) - g i = 0)).card
        - (Finset.univ.filter (fun i => (f i : Int) + g i = 0)).card := by
  have hset : (Finset.univ.filter (fun i => f i = g i ∧ f i ≠ 0))
      = (Finset.univ.filter (fun i => (f i : Int) - g i = 0))
        \ (Finset.univ.filter (fun i => (f i : Int) + g i = 0)) := by
    ext i
    simp only [Finset.mem_filter, Finset.mem_sdiff, Finset.mem_univ, true_and]
    omega
  rw [hset, Finset.card_sdiff (zero_filter_subset f g)]

theorem zero_le_diff_card {ι : Type} [Fintype ι] (f g : ι → Nat)
    [DecidableEq ι] :
    (Finset.univ.filter (fun i => (f i : Int) + g i = 0)).card
      ≤ (Finset.univ.filter (fun i => (f i : Int) - g i = 0)).card :=
  Finset.card_le_card (zero_filter_subset f g)

theorem matches_inst_eq_direct {size : Nat}
    (board : Fin size → Fin size → Tile)
    (hsmall : ∀ (h w : Fin size) (c : Fin 4), board h w c < 2 ^ 24) :
    matches_inst board = (direct_match_count board : Int) := by
  have hr : ∀ (h w : Fin size) (c : Fin 4),
      roundF32 (board h w c) = board h w c :=
    fun h w c => roundF32_eq_of_lt (hsmall h w c)
  have hh := direct_eq_diff_sub_zero
    (fun q : Fin (size - 1) × Fin size => board (rowHigh q.1) q.2 SOUTH)
    (fun q => board (rowLow q.1) q.2 NORTH)
  have hhle := zero_le_diff_card
    (fun q : Fin (size - 1) × Fin size => board (rowHigh q.1) q.2 SOUTH)
    (fun q => board (rowLow q.1) q.2 NORTH)
  have hv := direct_eq_diff_sub_zero
    (fun q : Fin size × Fin (size - 1) => board q.1 (rowLow q.2) EAST)
    (fun q => board q.1 (rowHigh q.2) WEST)
  have hvle := zero_le_diff_card
    (fun q : Fin size × Fin (size - 1) => board q.1 (rowLow q.2) EAST)
    (fun q => board q.1 (rowHigh q.2) WEST)
  unfold matches_inst direct_match_count hdiff_count vdiff_count
    hzero_count vzero_count at *
  simp only [hr]
  push_cast [hh, hv, Nat.cast_sub hhle, Nat.cast_sub hvle]
  ring

/-- Iterated `step` calls (no reset in between). -/
def stepMany {B size : Nat} (st : EnvState B size) :
    List (Fin B → Fin 4 → Int) → Option (EnvState B size)
  | [] => some st
  | a :: as => (stepEnv st a).bind (fun r => stepMany r.1 as)

/-- The dynamic state right after `__init__` (lines 73-76 of the source):
the given board, `step_id = 0`, `truncated = false`, `terminated` all
false. -/
def initState {B size : Nat} (inst : Fin (B * n_pieces size) → Tile) :
    EnvState B size :=
  ⟨inst, 0, false, fun _ => false⟩

/-- A concrete 2x2 single-instance board used by the witnesses. -/
def exInst : Fin (1 * n_pieces 2) → Tile :=
  fun p c => p.val + c.val + 1

/-- The concrete environment state of the witnesses. -/
def exState : EnvState 1 2 := initState exInst

/-- A 2x2 board whose one touching side-pair carries `2^24` against
`2^24 + 1`: float32 rounds both to `2^24`, so the convolution counts a
zero difference the direct integer check rejects.  All other sides are
small pairwise distinct labels. -/
def cexInst : Fin (1 * n_pieces 2) → Tile :=
  fun p c =>
    if p.val = 2 ∧ c.val = 2 then 2 ^ 24 + 1
    else if p.val = 0 ∧ c.val = 0 then 2 ^ 24
    else 2 + p.val * 4 + c.val

/-- C1 counterexample: on a 2x2 board with touching sides `2^24 + 1`
(SOUTH of the lower tile) and `2^24` (NORTH of the upper tile), the
float32 convolution pipeline counts 1 match while the direct
`side_a == side_b AND side_a != 0` check counts 0 — the two-pass count
is not equal to the direct count for every non-negative label
assignment. -/
theorem conv_matches_float_counterexample :
    matchesOf cexInst 0 = 1 ∧
    (direct_match_count (boardOf cexInst 0) : Int) = 0 := by
  constructor
  · decide
  · decide

/-- C1 amended: for every batch of boards whose side labels are all
below `2^24` (the range float32 represents exactly; any board size ≥ 2),
the two-pass convolution match count (float32 zeros of the difference
kernels minus float32 zeros of the sum kernels, over both directions)
equals, per instance, the direct count of adjacent pairs with
`side_a == side_b AND side_a != 0`.  Larger labels can be merged by the
float32 cast, making the two counts diverge. -/
theorem conv_matches_eq_direct (B size : Nat) (hsize : 2 ≤ size)
    (inst : Fin (B * n_pieces size) → Tile)
    (hsmall : ∀ (p : Fin (B * n_pieces size)) (c : Fin 4), inst p c < 2 ^ 24)
    (b : Fin B) :
    matchesOf inst b = (direct_match_count (boardOf inst b) : Int) :=
  matches_inst_eq_direct (boardOf inst b) (fun _ _ c => hsmall _ c)

/-- Witness for `conv_matches_eq_direct` at the concrete 2x2 board. -/
theorem conv_matches_eq_direct_witness :
    (2 ≤ 2 ∧ ∀ (p : Fin (1 * n_pieces 2)) (c : Fin 4), exInst p c < 2 ^ 24) ∧
    matchesOf exInst 0 = (direct_match_count (boardOf exInst 0) : Int) :=
  ⟨⟨by norm_num, by decide⟩,
   conv_matches_eq_direct 1 2 (by norm_num) exInst (by decide) 0⟩

/-- C3: with in-range tile ids, `roll_tiles` succeeds and (1) leaves
every flat position other than the addressed tiles unchanged, (2)
circularly rotates the four side labels of the addressed tile by the shift
taken modulo 4, and (3) is the identity on the whole board when every
shift is congruent to 0 modulo 4. -/
theorem roll_tiles_frame {B size : Nat}
    (inst : Fin (B * n_pieces size) → Tile) (t s : Fin B → Int)
    (ht : ∀ b, 0 ≤ t b ∧ t b < (n_pieces size : Int)) :
    ∃ v, roll_tiles inst t s = some v ∧
      (∀ p : Fin (B * n_pieces size),
        (∀ b, (p.val : Int) ≠ flatAddr (n_pieces size) t b) → v p = inst p) ∧
      (∀ (b : Fin B) (p : Fin (B * n_pieces size)),
        (p.val : Int) = flatAddr (n_pieces size) t b →
        ∀ c, v p c = inst p (rollSrc c (s b % 4))) ∧
      ((∀ b, s b % 4 = 0) → v = inst) := by
  obtain ⟨v, hv, hframe, hhit⟩ := roll_tiles_spec inst t s ht
  refine ⟨v, hv, hframe, ?_, ?_⟩
  · intro b p hp c
    rw [hhit b p hp c, rollSrc_emod]
  · intro h0
    funext p c
    by_cases hcase : ∃ b, (p.val : Int) = flatAddr (n_pieces size) t b
    · obtain ⟨b, hb⟩ := hcase
      rw [hhit b p hb c, rollSrc_of_emod_zero c (h0 b)]
    · push_neg at hcase
      rw [hframe p hcase]

/-- Witness for `roll_tiles_frame`: roll tile 0 of the 2x2 board by 1. -/
theorem roll_tiles_frame_witness :
    (∀ b : Fin 1, 0 ≤ (fun _ : Fin 1 => (0 : Int)) b ∧
      (fun _ : Fin 1 => (0 : Int)) b < (n_pieces 2 : Int)) ∧
    ∃ v, roll_tiles exInst (fun _ => 0) (fun _ => 1) = some v ∧
      (∀ p : Fin (1 * n_pieces 2),
        (∀ b : Fin 1, (p.val : Int) ≠ flatAddr (n_pieces 2) (fun _ => 0) b) →
        v p = exInst p) ∧
      (∀ (b : Fin 1) (p : Fin (1 * n_pieces 2)),
        (p.val : Int) = flatAddr (n_pieces 2) (fun _ => 0) b →
        ∀ c, v p c = exInst p (rollSrc c ((fun _ : Fin 1 => (1 : Int)) b % 4))) ∧
      ((∀ b : Fin 1, (fun _ : Fin 1 => (1 : Int)) b % 4 = 0) → v = exInst) :=
  ⟨by decide, roll_tiles_frame exInst (fun _ => 0) (fun _ => 1) (by decide)⟩

theorem fin_eq_of_int_val {N : Nat} {p q : Fin N}
    (h : (p.val : Int) = (q.val : Int)) : p = q :=
  Fin.ext (by exact_mod_cast h)

/-- A self-swap leaves the board unchanged. -/
theorem swap_tiles_self {B n : Nat} (inst : Fin (B * n) → Tile)
    (t : Fin B → Int) (ht : ∀ b, 0 ≤ t b ∧ t b < (n : Int)) :
    swap_tiles inst t t = some inst := by
  obtain ⟨v, hv, hframe, hc2, _⟩ := swap_tiles_spec inst t t ht ht
  have hveq : v = inst := by
    funext p
    by_cases hcase : ∃ b, (p.val : Int) = flatAddr n t b
    · obtain ⟨b, hb⟩ := hcase
      exact hc2 b p p hb hb
    · push_neg at hcase
      exact hframe p (fun b => ⟨hcase b, hcase b⟩)
  rw [hv, hveq]

/-- Applying the same swap twice restores the board. -/
theorem swap_tiles_involutive {B n : Nat} (inst : Fin (B * n) → Tile)
    (t1 t2 : Fin B → Int)
    (h1 : ∀ b, 0 ≤ t1 b ∧ t1 b < (n : Int))
    (h2 : ∀ b, 0 ≤ t2 b ∧ t2 b < (n : Int)) :
    ∃ v, swap_tiles inst t1 t2 = some v ∧ swap_tiles v t1 t2 = some inst := by
  obtain ⟨v, hv, hframe, hc2, hc3⟩ := swap_tiles_spec inst t1 t2 h1 h2
  obtain ⟨w, hw, hframew, hc2w, hc3w⟩ := swap_tiles_spec v t1 t2 h1 h2
  refine ⟨v, hv, ?_⟩
  have hweq : w = inst := by
    funext p
    by_cases hcase2 : ∃ b, (p.val : Int) = flatAddr n t2 b
    · obtain ⟨b, hp⟩ := hcase2
      obtain ⟨q, hq⟩ := flatAddr_exists h1 b
      rw [hc2w b p q hp hq]
      by_cases hcaseq : ∃ b2, (q.val : Int) = flatAddr n t2 b2
      · obtain ⟨b2, hq2⟩ := hcaseq
        have hb2 : b = b2 := flatAddr_inj h1 h2 (hq.symm.trans hq2)
        subst hb2
        have hpq : p = q := fin_eq_of_int_val (hp.trans hq2.symm)
        rw [hc2 b q q hq2 hq, hpq]
      · push_neg at hcaseq
        exact hc3 b q p hq hcaseq hp
    · push_neg at hcase2
      by_cases hcase1 : ∃ b, (p.val : Int) = flatAddr n t1 b
      · obtain ⟨b, hp⟩ := hcase1
        obtain ⟨q, hq⟩ := flatAddr_exists h2 b
        rw [hc3w b p q hp hcase2 hq]
        exact hc2 b q p hq hp
      · push_neg at hcase1
        rw [hframew p (fun b => ⟨hcase1 b, hcase2 b⟩)]
        exact hframe p (fun b => ⟨hcase1 b, hcase2 b⟩)
  rw [hw, hweq]

/-- C4: with in-range tile-id vectors, applying `swap_tiles` twice with
the same arguments restores the original board, and a self-swap is a
no-op (the board is returned unchanged, no tile partially updated). -/
theorem swap_involutive_and_self_noop {B size : Nat}
    (inst : Fin (B * n_pieces size) → Tile) (t1 t2 t : Fin B → Int)
    (h1 : ∀ b, 0 ≤ t1 b ∧ t1 b < (n_pieces size : Int))
    (h2 : ∀ b, 0 ≤ t2 b ∧ t2 b < (n_pieces size : Int))
    (ht : ∀ b, 0 ≤ t b ∧ t b < (n_pieces size : Int)) :
    (∃ v, swap_tiles inst t1 t2 = some v ∧ swap_tiles v t1 t2 = some inst) ∧
    swap_tiles inst t t = some inst :=
  ⟨swap_tiles_involutive inst t1 t2 h1 h2, swap_tiles_self inst t ht⟩

/-- Witness for `swap_involutive_and_self_noop` on the 2x2 board,
swapping tiles 0 and 3. -/
theorem swap_involutive_and_self_noop_witness :
    (∀ b : Fin 1, 0 ≤ (fun _ : Fin 1 => (0 : Int)) b ∧
      (fun _ : Fin 1 => (0 : Int)) b < (n_pieces 2 : Int)) ∧
    (∃ v, swap_tiles exInst (fun _ => 0) (fun _ => 3) = some v ∧
      swap_tiles v (fun _ => 0) (fun _ => 3) = some exInst) ∧
    swap_tiles exInst (fun _ => 2) (fun _ => 2) = some exInst :=
  ⟨by decide,
   swap_involutive_and_self_noop exInst (fun _ => 0) (fun _ => 3)
     (fun _ => 2) (by decide) (by decide) (by decide)⟩

/-- A concrete valid action for the 2x2 witnesses:
`(tile_id_1, shift_1, tile_id_2, shift_2) = (0, 1, 3, 2)`. -/
def stepActW : Fin 1 → Fin 4 → Int :=
  fun _ => ![0, 1, 3, 2]

/-- C2: for a valid action, `step` applies rotate-tile-1, then
rotate-tile-2, then swap-tiles-1-2, in that order, and returns per
instance the reward `(matches_after - matches_before) / best_matches`,
where `matches_before` is the count right before the compound action and
`matches_after` right after it. -/
theorem step_order_and_reward {B size : Nat} (st : EnvState B size)
    (a : Fin B → Fin 4 → Int)
    (ht1 : ∀ b, 0 ≤ a b 0 ∧ a b 0 < (n_pieces size : Int))
    (hs1 : ∀ b, 0 ≤ a b 1 ∧ a b 1 < 4)
    (ht2 : ∀ b, 0 ≤ a b 2 ∧ a b 2 < (n_pieces size : Int))
    (hs2 : ∀ b, 0 ≤ a b 3 ∧ a b 3 < 4) :
    ∃ i1 i2 i3,
      roll_tiles st.instances (act_tiles_1 a) (act_shifts_1 a) = some i1 ∧
      roll_tiles i1 (act_tiles_2 a) (act_shifts_2 a) = some i2 ∧
      swap_tiles i2 (act_tiles_1 a) (act_tiles_2 a) = some i3 ∧
      stepEnv st a = some
        (⟨i3, st.step_id + 1, decide (st.step_id + 1 ≥ max_steps size),
          fun b => st.terminated b || decide (matchesOf i3 b = best_matches size)⟩,
         fun b => ((matchesOf i3 b - matchesOf st.instances b : Int) : ℚ)
           / ((best_matches size : Int) : ℚ)) := by
  obtain ⟨i1, hi1, -, -⟩ :=
    roll_tiles_spec st.instances (act_tiles_1 a) (act_shifts_1 a) ht1
  obtain ⟨i2, hi2, -, -⟩ :=
    roll_tiles_spec i1 (act_tiles_2 a) (act_shifts_2 a) ht2
  obtain ⟨i3, hi3, -, -, -⟩ :=
    swap_tiles_spec i2 (act_tiles_1 a) (act_tiles_2 a) ht1 ht2
  refine ⟨i1, i2, i3, hi1, hi2, hi3, ?_⟩
  unfold stepEnv
  rw [hi1]
  simp only [Option.bind_eq_bind, Option.some_bind]
  rw [hi2]
  simp only [Option.bind_eq_bind, Option.some_bind]
  rw [hi3]
  simp only [Option.bind_eq_bind, Option.some_bind]

/-- Witness for `step_order_and_reward` on the concrete 2x2 state with
action `(tile 0, shift 1, tile 3, shift 2)`. -/
theorem step_order_and_reward_witness :
    (∀ b : Fin 1, 0 ≤ stepActW b 0 ∧ stepActW b 0 < (n_pieces 2 : Int)) ∧
    ∃ i1 i2 i3,
      roll_tiles exState.instances (act_tiles_1 stepActW)
        (act_shifts_1 stepActW) = some i1 ∧
      roll_tiles i1 (act_tiles_2 stepActW) (act_shifts_2 stepActW) = some i2 ∧
      swap_tiles i2 (act_tiles_1 stepActW) (act_tiles_2 stepActW) = some i3 ∧
      stepEnv exState stepActW = some
        (⟨i3, exState.step_id + 1,
          decide (exState.step_id + 1 ≥ max_steps 2),
          fun b => exState.terminated b ||
            decide (matchesOf i3 b = best_matches 2)⟩,
         fun b => ((matchesOf i3 b - matchesOf exState.instances b : Int) : ℚ)
           / ((best_matches 2 : Int) : ℚ)) :=
  ⟨by decide,
   step_order_and_reward exState stepActW
     (by decide) (by decide) (by decide) (by decide)⟩

/-- A concrete state whose only instance is already terminated. -/
def termStateW : EnvState 1 2 :=
  ⟨exInst, 0, false, fun _ => true⟩

/-- What a successful `stepEnv` did to the bookkeeping fields. -/
theorem stepEnv_some_fields {B size : Nat} {st : EnvState B size}
    {a : Fin B → Fin 4 → Int} {st2 : EnvState B size} {r : Fin B → ℚ}
    (h : stepEnv st a = some (st2, r)) :
    st2.step_id = st.step_id + 1 ∧
    st2.truncated = decide (st.step_id + 1 ≥ max_steps size) ∧
    ∀ b, st.terminated b = true → st2.terminated b = true := by
  unfold stepEnv at h
  cases h1 : roll_tiles st.instances (act_tiles_1 a) (act_shifts_1 a) with
  | none => rw [h1] at h; simp at h
  | some i1 =>
    rw [h1] at h
    simp only [Option.bind_eq_bind, Option.some_bind] at h
    cases h2 : roll_tiles i1 (act_tiles_2 a) (act_shifts_2 a) with
    | none => rw [h2] at h; simp at h
    | some i2 =>
      rw [h2] at h
      simp only [Option.bind_eq_bind, Option.some_bind] at h
      cases h3 : swap_tiles i2 (act_tiles_1 a) (act_tiles_2 a) with
      | none => rw [h3] at h; simp at h
      | some i3 =>
        rw [h3] at h
        simp only [Option.bind_eq_bind, Option.some_bind, Option.some_inj,
          Prod.mk.injEq] at h
        obtain ⟨hst, -⟩ := h
        rw [← hst]
        refine ⟨rfl, rfl, ?_⟩
        intro b hb
        simp [hb]

/-- C5: `terminated` is sticky across any successful sequence of `step`
calls: once true for an instance, it stays true, whatever the later
actions do to the match count. -/
theorem terminated_monotone {B size : Nat} (st : EnvState B size)
    (acts : List (Fin B → Fin 4 → Int)) (st2 : EnvState B size)
    (h : stepMany st acts = some st2) (b : Fin B)
    (hb : st.terminated b = true) : st2.terminated b = true := by
  induction acts generalizing st with
  | nil =>
    unfold stepMany at h
    simp only [Option.some_inj] at h
    rw [← h]; exact hb
  | cons a as ih =>
    unfold stepMany at h
    cases hs : stepEnv st a with
    | none => rw [hs] at h; simp at h
    | some pr =>
      obtain ⟨st1, r1⟩ := pr
      rw [hs] at h
      simp only [Option.bind_eq_bind, Option.some_bind] at h
      have hfields := stepEnv_some_fields hs
      exact ih st1 h (hfields.2.2 b hb)

/-- Witness for `terminated_monotone`: a one-action trace from a state
whose instance 0 is already terminated. -/
theorem terminated_monotone_witness :
    ∃ st2, stepMany termStateW [stepActW] = some st2 ∧
      termStateW.terminated 0 = true ∧ st2.terminated 0 = true := by
  have hsome : (stepMany termStateW [stepActW]).isSome = true := by decide
  refine ⟨(stepMany termStateW [stepActW]).get hsome,
    (Option.some_get hsome).symm, rfl, ?_⟩
  exact terminated_monotone termStateW [stepActW] _
    (Option.some_get hsome).symm 0 rfl

/-- Along a successful trace, `step_id` counts the steps and `truncated`
reflects the test made by the last step. -/
theorem stepMany_fields {B size : Nat} {st : EnvState B size}
    {acts : List (Fin B → Fin 4 → Int)} {st2 : EnvState B size}
    (h : stepMany st acts = some st2) :
    st2.step_id = st.step_id + acts.length ∧
    (acts ≠ [] → st2.truncated = decide (st2.step_id ≥ max_steps size)) := by
  induction acts generalizing st with
  | nil =>
    unfold stepMany at h
    simp only [Option.some_inj] at h
    rw [← h]
    exact ⟨rfl, by simp⟩
  | cons a as ih =>
    unfold stepMany at h
    cases hs : stepEnv st a with
    | none => rw [hs] at h; simp at h
    | some pr =>
      obtain ⟨st1, r1⟩ := pr
      rw [hs] at h
      simp only [Option.bind_eq_bind, Option.some_bind] at h
      have hfields := stepEnv_some_fields hs
      have hih := ih h
      constructor
      · rw [hih.1, hfields.1]
        simp [List.length_cons]
        omega
      · intro _hne
        cases hnil : as with
        | nil =>
          rw [hnil] at h
          unfold stepMany at h
          simp only [Option.some_inj] at h
          rw [← h, hfields.2.1, hfields.1.symm]
        | cons a2 as2 =>
          exact hih.2 (by simp [hnil])

/-- C6: after a reset, `step_id = 0`, every `terminated` flag is false
and `truncated` is false; and after the `k`-th step call since the reset
(`k ≥ 1`), the batch-wide `truncated` flag is true exactly when
`k ≥ size*size`, never earlier. -/
theorem reset_flags_and_truncation {B size : Nat} (st : EnvState B size)
    (g : Nat) (acts : List (Fin B → Fin 4 → Int)) (st2 : EnvState B size)
    (h : stepMany (resetEnv st g).1 acts = some st2) (hne : acts ≠ []) :
    (resetEnv st g).1.step_id = 0 ∧
    (resetEnv st g).1.terminated = (fun _ => false) ∧
    (resetEnv st g).1.truncated = false ∧
    (st2.truncated = true ↔ acts.length ≥ n_pieces size) := by
  refine ⟨rfl, rfl, rfl, ?_⟩
  have hf := stepMany_fields h
  have hid : st2.step_id = acts.length := by
    rw [hf.1]
    have h0 : (resetEnv st g).1.step_id = 0 := rfl
    rw [h0]
    omega
  rw [hf.2 hne, hid]
  unfold max_steps
  simp

/-- Witness for `reset_flags_and_truncation`: reset the concrete batch
with seed 0 and run one step. -/
theorem reset_flags_and_truncation_witness :
    ∃ st2, stepMany (resetEnv exState 0).1 [stepActW] = some st2 ∧
      ([stepActW] ≠ ([] : List (Fin 1 → Fin 4 → Int))) ∧
      (resetEnv exState 0).1.step_id = 0 ∧
      (st2.truncated = true ↔ [stepActW].length ≥ n_pieces 2) := by
  have hsome : (stepMany (resetEnv exState 0).1 [stepActW]).isSome = true := by
    decide
  have hrun := (Option.some_get hsome).symm
  have hthm := reset_flags_and_truncation exState 0 [stepActW]
    ((stepMany (resetEnv exState 0).1 [stepActW]).get hsome) hrun (by simp)
  exact ⟨_, hrun, by simp, hthm.1, hthm.2.2.2⟩

/-- A concrete action whose shift column 1 is out of range:
`(tile_id_1, shift_1, tile_id_2, shift_2) = (0, 4, 0, 0)`. -/
def shiftActW : Fin 1 → Fin 4 → Int :=
  fun _ => ![0, 4, 0, 0]

/-- C7: two batches constructed from identical initial tile tensors with
the same seed, driven by the same sequence of reset and step calls with
the same arguments, produce bit-identical board states, rewards and
flags at every point (the generator is the only hidden mutable state and
its draws are ordered strictly by call sequence); in particular the
reset-scrambled boards coincide. -/
theorem deterministic_replay {B size : Nat}
    (inst1 inst2 : Fin (B * n_pieces size) → Tile) (g1 g2 : Nat)
    (hinst : inst1 = inst2) (hg : g1 = g2) (calls : List (Call B)) :
    runTrace (initState inst1) g1 calls
      = runTrace (initState inst2) g2 calls ∧
    (resetEnv (initState inst1) g1).1.instances
      = (resetEnv (initState inst2) g2).1.instances := by
  subst hinst
  subst hg
  exact ⟨rfl, rfl⟩

/-- Witness for `deterministic_replay`: the concrete batch, seed 0, one
reset followed by one step. -/
theorem deterministic_replay_witness :
    runTrace (initState exInst) 0 [Call.reset, Call.act stepActW]
      = runTrace (initState exInst) 0 [Call.reset, Call.act stepActW] ∧
    (resetEnv (initState exInst) 0).1.instances
      = (resetEnv (initState exInst) 0).1.instances :=
  deterministic_replay exInst exInst 0 0 rfl rfl
    [Call.reset, Call.act stepActW]

/-- The empty tensor of shape `[0, 4, 2, 2]`: it has 4 dimensions,
channel dimension 4, a square board and (vacuously) no negative
label. -/
def emptyTensorW : RawTensor :=
  ⟨[0, 4, 2, 2], []⟩

/-- C8 counterexample: the empty tensor of shape `[0, 4, 2, 2]`
satisfies all four asserted conditions, yet construction fails
(`self.instances.max()` raises on a tensor with zero elements) — so
construction on a tensor satisfying the four conditions does not always
succeed. -/
theorem construction_empty_tensor_counterexample :
    (emptyTensorW.shape.length = 4 ∧ emptyTensorW.shape.getD 1 0 = 4 ∧
     emptyTensorW.shape.getD 2 0 = emptyTensorW.shape.getD 3 0 ∧
     ∀ x ∈ emptyTensorW.data, 0 ≤ x) ∧
    (mkEnv emptyTensorW 0).isSome = false := by
  constructor
  · refine ⟨rfl, rfl, rfl, ?_⟩
    intro x hx
    simp [emptyTensorW] at hx
  · decide

/-- C8 amended: construction fails on every tensor violating one of the
four conditions (4 dimensions, channel dimension 4, square board, no
negative label), in each case before any batch state is created; on a
tensor satisfying all four it succeeds exactly when the tensor is
non-empty (an empty tensor passes the assertions but the `n_class`
computation `self.instances.max()` raises). -/
theorem construction_validates (t : RawTensor) (seed : Nat) :
    (mkEnv t seed).isSome ↔
      (t.shape.length = 4 ∧ t.shape.getD 1 0 = 4 ∧
       t.shape.getD 2 0 = t.shape.getD 3 0 ∧ (∀ x ∈ t.data, 0 ≤ x) ∧
       0 < numel t) := by
  constructor
  · intro h
    unfold mkEnv at h
    by_cases hv : validInit t
    · rw [if_pos hv] at h
      by_cases hn : 0 < numel t
      · exact ⟨hv.1, hv.2.1, hv.2.2.1, hv.2.2.2, hn⟩
      · rw [if_neg hn] at h
        simp at h
    · rw [if_neg hv] at h
      simp at h
  · rintro ⟨h1, h2, h3, h4, h5⟩
    unfold mkEnv
    rw [if_pos ⟨h1, h2, h3, h4⟩, if_pos h5]
    simp

/-- C9 counterexample: the action `(0, 4, 0, 0)` on the concrete batch
has the out-of-range shift 4 (shifts are declared in `[0, 4)`), yet
`step` succeeds instead of failing with an indexing error. -/
theorem step_accepts_out_of_range_shift :
    act_shifts_1 shiftActW 0 = 4 ∧ ¬ (act_shifts_1 shiftActW 0 < 4) ∧
    (stepEnv exState shiftActW).isSome = true := by
  refine ⟨rfl, by decide, by decide⟩

/-- C9 amended: `step` fails with the indexing error exactly when some
per-instance flattened tile index `tile_id + b * n_pieces` (of either
tile column) lies outside `[-B*n_pieces, B*n_pieces)`; the shift
columns never cause a failure (they are reduced modulo 4). -/
theorem step_raises_iff {B size : Nat} (st : EnvState B size)
    (a : Fin B → Fin 4 → Int) :
    (stepEnv st a).isSome = true ↔
      ((∀ b, -((B * n_pieces size : Nat) : Int)
          ≤ flatAddr (n_pieces size) (act_tiles_1 a) b ∧
        flatAddr (n_pieces size) (act_tiles_1 a) b
          < ((B * n_pieces size : Nat) : Int)) ∧
       (∀ b, -((B * n_pieces size : Nat) : Int)
          ≤ flatAddr (n_pieces size) (act_tiles_2 a) b ∧
        flatAddr (n_pieces size) (act_tiles_2 a) b
          < ((B * n_pieces size : Nat) : Int))) := by
  have hiff1 : (∀ b : Fin B,
      (torchIndex (B * n_pieces size)
        (flatAddr (n_pieces size) (act_tiles_1 a) b)).isSome) ↔
      (∀ b, -((B * n_pieces size : Nat) : Int)
          ≤ flatAddr (n_pieces size) (act_tiles_1 a) b ∧
        flatAddr (n_pieces size) (act_tiles_1 a) b
          < ((B * n_pieces size : Nat) : Int)) := by
    constructor
    · intro h b; exact torchIndex_isSome_iff.mp (h b)
    · intro h b; exact torchIndex_isSome_iff.mpr (h b)
  have hiff2 : (∀ b : Fin B,
      (torchIndex (B * n_pieces size)
        (flatAddr (n_pieces size) (act_tiles_2 a) b)).isSome) ↔
      (∀ b, -((B * n_pieces size : Nat) : Int)
          ≤ flatAddr (n_pieces size) (act_tiles_2 a) b ∧
        flatAddr (n_pieces size) (act_tiles_2 a) b
          < ((B * n_pieces size : Nat) : Int)) := by
    constructor
    · intro h b; exact torchIndex_isSome_iff.mp (h b)
    · intro h b; exact torchIndex_isSome_iff.mpr (h b)
  rw [← hiff1, ← hiff2]
  unfold stepEnv roll_tiles swap_tiles
  by_cases hc1 : ∀ b : Fin B,
      (torchIndex (B * n_pieces size)
        (flatAddr (n_pieces size) (act_tiles_1 a) b)).isSome
  · rw [dif_pos hc1]
    simp only [Option.bind_eq_bind, Option.some_bind]
    by_cases hc2 : ∀ b : Fin B,
        (torchIndex (B * n_pieces size)
          (flatAddr (n_pieces size) (act_tiles_2 a) b)).isSome
    · rw [dif_pos hc2]
      simp only [Option.bind_eq_bind, Option.some_bind]
      rw [dif_pos ⟨hc2, hc1⟩]
      simp only [Option.bind_eq_bind, Option.some_bind, Option.isSome_some]
      exact ⟨fun _ => ⟨hc1, hc2⟩, fun _ => trivial⟩
    · rw [dif_neg hc2]
      simp only [Option.bind_eq_bind, Option.none_bind, Option.isSome_none]
      constructor
      · intro h; exact absurd h (by simp)
      · intro h; exact absurd h.2 hc2
  · rw [dif_neg hc1]
    simp only [Option.bind_eq_bind, Option.none_bind, Option.isSome_none]
    constructor
    · intro h; exact absurd h (by simp)
    · intro h; exact absurd h.1 hc1

/-- C10: per the declared `MultiDiscrete([n_pieces, n_pieces, 4, 4])`
action space, every member action has component 2 in `[0, 4)` — yet
`step` consumes component 2 as `tile_id_2`; and (for `size ≥ 3`) the
space contains an action whose component 1 — consumed by `step` as
`shift_1` — is at least 4.  The advertised per-component bounds do not
describe the ranges `step` actually consumes. -/
theorem action_space_mismatch {B size : Nat} (hB : 0 < B) (hsize : 3 ≤ size) :
    (∀ a : Fin B → Fin 4 → Int, inActionSpace size a →
      ∀ b, 0 ≤ act_tiles_2 a b ∧ act_tiles_2 a b < 4) ∧
    (∃ a : Fin B → Fin 4 → Int, inActionSpace size a ∧
      ∃ b, 4 ≤ act_shifts_1 a b) := by
  constructor
  · intro a ha b
    have h2 := ha b 2
    simpa [act_tiles_2, action_space_bounds] using h2
  · refine ⟨fun _ => ![0, (n_pieces size : Int) - 1, 0, 0],
      ?_, ⟨0, hB⟩, ?_⟩
    · intro b i
      have hn : (9 : Int) ≤ (n_pieces size : Int) := by
        have h9 : 9 ≤ n_pieces size := by
          unfold n_pieces
          calc 9 = 3 * 3 := by norm_num
            _ ≤ size * size := Nat.mul_le_mul hsize hsize
        exact_mod_cast h9
      fin_cases i <;>
        simp [action_space_bounds] <;> omega
    · show (4 : Int) ≤ (n_pieces size : Int) - 1
      have h9 : 9 ≤ n_pieces size := by
        unfold n_pieces
        calc 9 = 3 * 3 := by norm_num
          _ ≤ size * size := Nat.mul_le_mul hsize hsize
      have : (9 : Int) ≤ (n_pieces size : Int) := by exact_mod_cast h9
      omega

/-- Witness for `action_space_mismatch` at `B = 1`, `size = 3`. -/
theorem action_space_mismatch_witness :
    (0 < 1 ∧ 3 ≤ 3) ∧
    ((∀ a : Fin 1 → Fin 4 → Int, inActionSpace 3 a →
        ∀ b, 0 ≤ act_tiles_2 a b ∧ act_tiles_2 a b < 4) ∧
     (∃ a : Fin 1 → Fin 4 → Int, inActionSpace 3 a ∧
        ∃ b, 4 ≤ act_shifts_1 a b)) :=
  ⟨⟨by norm_num, by norm_num⟩, action_space_mismatch (by norm_num) (by norm_num)⟩

end EternityRL
